import Mathlib

/-
Verification of src/field_placement.py (A* cricket field placement).

Embedding conventions:
- Python floats are modelled as exact rationals.  Every numeric constant in the
  program is a short decimal, every product of table entries has at most three
  decimal digits, and consecutive distinct values reachable in the program are
  spaced far beyond double precision error, so exact rational arithmetic agrees
  with the float computations of the source on all comparisons and on every
  rounded value the program produces.
- math.dist (Euclidean distance) is compared only against other distances and
  against the constant 0.35.  The real square root is strictly monotone, so the
  embedding compares squared distances (and 0.35^2 = 0.1225) instead; this is
  equivalent to the comparisons performed by the source.
- Python dicts are association lists in declaration order (Python dicts iterate
  in insertion order); dict.get with default is dgetD below.
- The frozenset search states are represented canonically as strictly sorted
  lists of zone names, so that list equality coincides with set equality.
-/

/-- Python round(x, d) for the decimal values of this program: round half to
even (banker rounding) at d decimal digits, on exact rationals.  For every
value the source actually rounds, the float is within 1e-12 of a short exact
decimal and far from any rounding midpoint, so this agrees with the source. -/
def roundHalfEven (q : ℚ) : ℤ :=
  let n := q.floor
  let r := q - n
  if r < 1/2 then n
  else if 1/2 < r then n + 1
  else if n % 2 = 0 then n else n + 1

/-- Python round(x, d): scale, round half to even, unscale. -/
def pyRound (q : ℚ) (d : ℕ) : ℚ := (roundHalfEven (q * 10 ^ d) : ℚ) / 10 ^ d

theorem floor_cast_le (q : ℚ) : (q.floor : ℚ) ≤ q := Rat.le_floor.mp le_rfl

theorem lt_floor_cast_add_one (q : ℚ) : q < (q.floor : ℚ) + 1 := by
  by_contra h
  push_neg at h
  have h2 : (((q.floor + 1 : ℤ) : ℚ)) ≤ q := by push_cast; linarith
  have h3 := Rat.le_floor.mpr h2
  omega

theorem roundHalfEven_le (q : ℚ) : (roundHalfEven q : ℚ) ≤ q + 1/2 := by
  have h1 := floor_cast_le q
  have h2 := lt_floor_cast_add_one q
  unfold roundHalfEven
  by_cases c1 : q - q.floor < 1/2
  · simp only [c1, if_true]
    linarith
  · simp only [c1, if_false]
    by_cases c2 : (1:ℚ)/2 < q - q.floor
    · simp only [c2, if_true]
      push_cast
      linarith
    · simp only [c2, if_false]
      have c3 : q - q.floor = 1/2 := by linarith
      by_cases c4 : q.floor % 2 = 0 <;> simp only [c4, if_true, if_false] <;> push_cast <;> linarith

theorem le_roundHalfEven (q : ℚ) : q - 1/2 ≤ (roundHalfEven q : ℚ) := by
  have h1 := floor_cast_le q
  have h2 := lt_floor_cast_add_one q
  unfold roundHalfEven
  by_cases c1 : q - q.floor < 1/2
  · simp only [c1, if_true]
    linarith
  · simp only [c1, if_false]
    by_cases c2 : (1:ℚ)/2 < q - q.floor
    · simp only [c2, if_true]
      push_cast
      linarith
    · simp only [c2, if_false]
      have c3 : q - q.floor = 1/2 := by linarith
      by_cases c4 : q.floor % 2 = 0 <;> simp only [c4, if_true, if_false] <;> push_cast <;> linarith

theorem roundHalfEven_mono {a b : ℚ} (h : a ≤ b) : roundHalfEven a ≤ roundHalfEven b := by
  rcases eq_or_lt_of_le h with heq | hlt
  · subst heq; exact le_rfl
  · by_contra hc
    push_neg at hc
    have h1 : roundHalfEven b + 1 ≤ roundHalfEven a := by omega
    have h2 := roundHalfEven_le a
    have h3 := le_roundHalfEven b
    have h4 : (roundHalfEven b : ℚ) + 1 ≤ (roundHalfEven a : ℚ) := by exact_mod_cast h1
    linarith

theorem roundHalfEven_nonneg {q : ℚ} (h : 0 ≤ q) : 0 ≤ roundHalfEven q := by
  have h1 : (0:ℤ) ≤ q.floor := Rat.le_floor.mpr (by exact_mod_cast h)
  unfold roundHalfEven
  by_cases c1 : q - q.floor < 1/2
  · simp only [c1, if_true]; exact h1
  · simp only [c1, if_false]
    by_cases c2 : (1:ℚ)/2 < q - q.floor
    · simp only [c2, if_true]; omega
    · simp only [c2, if_false]
      by_cases c4 : q.floor % 2 = 0 <;> simp only [c4, if_true, if_false] <;> omega

theorem pyRound_mono {a b : ℚ} (d : ℕ) (h : a ≤ b) : pyRound a d ≤ pyRound b d := by
  unfold pyRound
  have hp : (0:ℚ) < 10 ^ d := by positivity
  have h1 : a * 10 ^ d ≤ b * 10 ^ d := by nlinarith
  have h2 := roundHalfEven_mono h1
  have h3 : ((roundHalfEven (a * 10 ^ d) : ℤ) : ℚ) ≤ ((roundHalfEven (b * 10 ^ d) : ℤ) : ℚ) := by
    exact_mod_cast h2
  exact (div_le_div_iff_of_pos_right hp).mpr h3

theorem pyRound_nonneg {q : ℚ} (d : ℕ) (h : 0 ≤ q) : 0 ≤ pyRound q d := by
  unfold pyRound
  have hp : (0:ℚ) < 10 ^ d := by positivity
  have h1 : (0:ℚ) ≤ q * 10 ^ d := by positivity
  have h2 := roundHalfEven_nonneg h1
  have h3 : (0:ℚ) ≤ (roundHalfEven (q * 10 ^ d) : ℚ) := by exact_mod_cast h2
  positivity

/-- Association-list lookup, modelling Python dict indexing on insertion-ordered
tables (the tables below list their pairs in source declaration order). -/
def dget {β : Type} : List (String × β) → String → Option β
  | [], _ => none
  | (k, v) :: rest, a => if k = a then some v else dget rest a

/-- Python dict.get(key, default). -/
def dgetD {β : Type} (l : List (String × β)) (a : String) (dflt : β) : β :=
  (dget l a).getD dflt

/-- One zone of the catalog: angular interval in degrees and risk weight
(src lines 17-30). -/
structure ZoneData where
  angleLo : ℚ
  angleHi : ℚ
  risk : ℚ
deriving DecidableEq

/-- The static zone catalog ZONES (src lines 17-30), in declaration order. -/
def ZONES : List (String × ZoneData) := [
  ("Fine Leg",        ⟨150, 190, 0.6⟩),
  ("Square Leg",      ⟨100, 150, 0.8⟩),
  ("Mid Wicket",      ⟨55, 100, 0.9⟩),
  ("Mid On",          ⟨25, 55, 0.7⟩),
  ("Mid Off",         ⟨-25, 25, 0.7⟩),
  ("Cover",           ⟨-55, -25, 0.95⟩),
  ("Point",           ⟨-100, -55, 0.85⟩),
  ("Third Man",       ⟨-190, -150, 0.6⟩),
  ("Long On",         ⟨10, 40, 0.5⟩),
  ("Long Off",        ⟨-40, -10, 0.5⟩),
  ("Deep Mid Wicket", ⟨70, 110, 0.55⟩),
  ("Slip",            ⟨-200, -160, 0.75⟩)
]

/-- Zone names in catalog order. -/
def catalogKeys : List String := ZONES.map Prod.fst

/-- ZONES[z]["risk"], total with junk default 0; every zone reachable from the
tables of this program is a catalog key, so the default is never hit there. -/
def zoneRisk (z : String) : ℚ :=
  match dget ZONES z with
  | some zd => zd.risk
  | none => 0

/-- zone_center (src lines 41-50): the midpoint angle of the zone interval is
converted to radians and projected by cosine and sine at radius 0.65, each
coordinate rounded to 3 decimals.  The cosine and sine are transcendental, so
this table records the resulting 3-decimal constants, evaluated once for the
12 static catalog entries; every one of those values is at distance at least
0.05 in the third decimal from a rounding midpoint, so the constants are the
exact outputs of the source.  Keys and order match ZONES; the junk default
(0, 0) of zone_center is never hit for zones drawn from the tables. -/
def ZONE_CENTERS : List (String × (ℚ × ℚ)) := [
  ("Fine Leg",        (-0.640, 0.113)),
  ("Square Leg",      (-0.373, 0.532)),
  ("Mid Wicket",      (0.141, 0.635)),
  ("Mid On",          (0.498, 0.418)),
  ("Mid Off",         (0.650, 0)),
  ("Cover",           (0.498, -0.418)),
  ("Point",           (0.141, -0.635)),
  ("Third Man",       (-0.640, -0.113)),
  ("Long On",         (0.589, 0.275)),
  ("Long Off",        (0.589, -0.275)),
  ("Deep Mid Wicket", (0, 0.650)),
  ("Slip",            (-0.650, 0))
]

/-- Get x,y center of a named zone at 65 percent of the boundary radius. -/
def zone_center (z : String) : ℚ × ℚ := (dget ZONE_CENTERS z).getD (0, 0)

/-- A shot-probability profile: zone name to probability, in dict order. -/
abbrev Profile := List (String × ℚ)

/-- DELIVERY_ZONE_PROBS (src lines 32-39), in declaration order. -/
def DELIVERY_ZONE_PROBS : List (String × Profile) := [
  ("yorker",    [("Fine Leg", 0.4), ("Square Leg", 0.3), ("Mid Wicket", 0.2), ("Mid On", 0.1), ("Cover", 0.1)]),
  ("bouncer",   [("Square Leg", 0.5), ("Point", 0.4), ("Fine Leg", 0.3), ("Third Man", 0.3)]),
  ("full toss", [("Mid On", 0.4), ("Mid Off", 0.4), ("Cover", 0.5), ("Mid Wicket", 0.3)]),
  ("off spin",  [("Cover", 0.6), ("Point", 0.5), ("Mid Wicket", 0.4), ("Mid Off", 0.3)]),
  ("leg spin",  [("Fine Leg", 0.5), ("Square Leg", 0.5), ("Mid Wicket", 0.4), ("Cover", 0.3)]),
  ("outswing",  [("Slip", 0.7), ("Cover", 0.5), ("Point", 0.4), ("Third Man", 0.3)])
]

/-- The fallback profile for unknown delivery types (src line 91): the first
six catalog zones, each mapped to its own risk weight. -/
def fallback_profile : Profile := (ZONES.take 6).map (fun zr => (zr.1, zr.2.risk))

/-- Profile selection (src lines 89-91): DELIVERY_ZONE_PROBS.get(d, empty),
falling back when the result is empty. -/
def shotProbsFor (delivery_type : String) : Profile :=
  match dget DELIVERY_ZONE_PROBS delivery_type with
  | some p => if p = [] then fallback_profile else p
  | none => fallback_profile

/-- Squared Euclidean distance.  The source compares math.dist outputs with
each other and with 0.35; the real square root is strictly monotone, so the
embedding compares squares (0.35^2 = 0.1225) with identical outcomes. -/
def distSq (p q : ℚ × ℚ) : ℚ := (p.1 - q.1) ^ 2 + (p.2 - q.2) ^ 2

/-- The inner loop of heuristic (src lines 61-68): the profile zone whose
center is nearest to pos, with its squared distance; first minimum wins
(strict improvement required), None only for an empty profile. -/
def nearestZone (shot_probs : Profile) (pos : ℚ × ℚ) : Option (String × ℚ) :=
  shot_probs.foldl (fun best zp =>
    let d := distSq pos (zone_center zp.1)
    match best with
    | none => some (zp.1, d)
    | some bd => if d < bd.2 then some (zp.1, d) else bd) none

/-- One iteration of the covering loop of heuristic (src lines 59-70): mark
the nearest profile zone as covered when it is strictly closer than 0.35. -/
def coverStep (shot_probs : Profile) (cov : List String) (pos : ℚ × ℚ) : List String :=
  match nearestZone shot_probs pos with
  | none => cov
  | some bd =>
    if bd.2 < 0.1225 then (if bd.1 ∈ cov then cov else cov ++ [bd.1]) else cov

/-- The covered set of heuristic (src lines 58-70), as a duplicate-free list. -/
def coveredZones (fielder_positions : List (ℚ × ℚ)) (shot_probs : Profile) : List String :=
  fielder_positions.foldl (coverStep shot_probs) []

/-- heuristic (src lines 52-76): sum of probability times risk over uncovered
profile zones, rounded to 4 decimals. -/
def heuristic (fielder_positions : List (ℚ × ℚ)) (shot_probs : Profile) : ℚ :=
  let covered := coveredZones fielder_positions shot_probs
  pyRound (((shot_probs.filter (fun zp => decide (zp.1 ∉ covered))).map
    (fun zp => zp.2 * zoneRisk zp.1)).sum) 4

/-- Canonical representative of frozenset insertion state | {z}: ordered
insert into a strictly sorted list of zone names (no duplicate inserted).
List equality of these canonical forms coincides with set equality. -/
def insertSorted (z : String) : List String → List String
  | [] => [z]
  | a :: rest =>
    if z = a then a :: rest
    else if z < a then z :: a :: rest
    else a :: insertSorted z rest

/-- A frontier entry (f_score, g_score, state), src line 93. -/
abbrev Entry := ℚ × ℕ × List String

/-- Junk entry used as the out-of-bounds default of list indexing; all heap
indices used by the heap routines are in bounds, and the lemmas below account
for the default explicitly. -/
def dummyEntry : Entry := (0, 0, [])

/-- Python frozenset proper-subset test (the last component of tuple
comparison): subset and not superset. -/
def properSub (s1 s2 : List String) : Bool :=
  decide ((∀ z ∈ s1, z ∈ s2) ∧ ¬ (∀ z ∈ s2, z ∈ s1))

/-- Python tuple comparison (f, g, state) < (f, g, state): lexicographic with
equality tests on each component and frozenset proper subset on states. -/
def entryLt (a b : Entry) : Bool :=
  if a.1 ≠ b.1 then decide (a.1 < b.1)
  else if a.2.1 ≠ b.2.1 then decide (a.2.1 < b.2.1)
  else properSub a.2.2 b.2.2

/-- heap[i] with junk default. -/
def hget (h : List Entry) (i : ℕ) : Entry := h.getD i dummyEntry

/-- heap[i] = e (no-op out of bounds; all uses are in bounds). -/
def hset (h : List Entry) (i : ℕ) (e : Entry) : List Entry := h.set i e

/-- CPython heapq _siftdown(heap, startpos, pos) with newitem already read
out: walk the new item towards the root while it is strictly less than its
parent.  pos strictly decreases, so fuel = initial pos suffices exactly. -/
def siftdownAux : ℕ → List Entry → ℕ → ℕ → Entry → List Entry
  | 0, heap, _, pos, newitem => hset heap pos newitem
  | fuel + 1, heap, startpos, pos, newitem =>
    if startpos < pos then
      let parentpos := (pos - 1) / 2
      let parent := hget heap parentpos
      if entryLt newitem parent then
        siftdownAux fuel (hset heap pos parent) startpos parentpos newitem
      else hset heap pos newitem
    else hset heap pos newitem

/-- CPython heapq _siftup main loop: bubble the smaller child up until a leaf,
returning the heap and the final position.  childpos at least doubles each
step, so fuel = heap length suffices. -/
def siftupAux : ℕ → List Entry → ℕ → List Entry × ℕ
  | 0, heap, pos => (heap, pos)
  | fuel + 1, heap, pos =>
    let endpos := heap.length
    let childpos := 2 * pos + 1
    if childpos < endpos then
      let rightpos := childpos + 1
      let cp :=
        if rightpos < endpos ∧ entryLt (hget heap childpos) (hget heap rightpos) = false
        then rightpos else childpos
      siftupAux fuel (hset heap pos (hget heap cp)) cp
    else (heap, pos)

/-- CPython heapq _siftup(heap, pos) for the item newitem placed at pos. -/
def siftupL (heap : List Entry) (pos : ℕ) (newitem : Entry) : List Entry :=
  let r := siftupAux heap.length heap pos
  siftdownAux r.2 (hset r.1 r.2 newitem) pos r.2 newitem

/-- CPython heapq.heappush. -/
def heappushL (heap : List Entry) (e : Entry) : List Entry :=
  siftdownAux heap.length (heap ++ [e]) 0 heap.length e

/-- CPython heapq.heappop: none on an empty heap (the loop never pops one). -/
def heappopL (heap : List Entry) : Option (Entry × List Entry) :=
  match heap with
  | [] => none
  | _ :: _ =>
    let lastelt := hget heap (heap.length - 1)
    let rest := heap.dropLast
    if rest.length = 0 then some (lastelt, rest)
    else some (hget rest 0, siftupL (hset rest 0 lastelt) 0 lastelt)

/-- Mutable state of the search loop of astar_field_placement
(src lines 96-134).  best_f = float(inf) is modelled as none. -/
structure LoopState where
  heap : List Entry
  visited : List (List String × ℕ)
  bestState : List String
  bestF : Option ℚ
  iterations : ℕ
deriving DecidableEq

/-- f < best_f where best_f may be the initial float infinity. -/
def ltInfB (q : ℚ) : Option ℚ → Bool
  | none => true
  | some b => decide (q < b)

/-- visited dict lookup (keys are canonical sorted state lists, equality of
which is frozenset equality). -/
def visitedGet : List (List String × ℕ) → List String → Option ℕ
  | [], _ => none
  | (k, gv) :: rest, s => if k = s then some gv else visitedGet rest s

/-- state in visited and visited[state] <= g (src line 117). -/
def visitedLeB (v : List (List String × ℕ)) (s : List String) (g : ℕ) : Bool :=
  match visitedGet v s with
  | some gv => decide (gv ≤ g)
  | none => false

/-- visited[state] = g: dict assignment, replacing an existing key. -/
def visitedSet : List (List String × ℕ) → List String → ℕ → List (List String × ℕ)
  | [], s, g => [(s, g)]
  | (k, gv) :: rest, s, g =>
    if k = s then (s, g) :: rest else (k, gv) :: visitedSet rest s g

/-- The successor entry pushed for one unassigned zone (src lines 125-130):
new_state = state | {zone}, positions = centers of new_state, new_g = g + 1,
new_h = heuristic(positions), entry (new_g + new_h, new_g, new_state). -/
def childEntry (shot_probs : Profile) (g : ℕ) (state : List String) (z : String) : Entry :=
  let new_state := insertSorted z state
  let positions := new_state.map zone_center
  let new_g := g + 1
  let new_h := heuristic positions shot_probs
  ((new_g : ℚ) + new_h, new_g, new_state)

/-- The expansion loop (src lines 122-130): push a successor for every
profile zone not already in the state, in profile order. -/
def expandPush (shot_probs : Profile) (g : ℕ) (state : List String) (heap : List Entry) : List Entry :=
  shot_probs.foldl (fun h zp =>
    if zp.1 ∈ state then h else heappushL h (childEntry shot_probs g state zp.1)) heap

/-- One iteration of the while loop (src lines 107-134): increment the
counter, pop the smallest entry, then either record a completed candidate,
skip a dominated state, or expand and track the secondary best candidate. -/
def stepOnce (shot_probs : Profile) (n_fielders : ℕ) (ls : LoopState) : LoopState :=
  match heappopL ls.heap with
  | none => ls
  | some ((f, g, state), heap1) =>
    let it := ls.iterations + 1
    if n_fielders ≤ state.length then
      if ltInfB f ls.bestF then
        { ls with heap := heap1, iterations := it, bestF := some f, bestState := state }
      else
        { ls with heap := heap1, iterations := it }
    else if visitedLeB ls.visited state g then
      { ls with heap := heap1, iterations := it }
    else
      let visited1 := visitedSet ls.visited state g
      let heap2 := expandPush shot_probs g state heap1
      if ltInfB f ls.bestF ∧ state ≠ [] then
        { heap := heap2, visited := visited1, bestState := state,
          bestF := some f, iterations := it }
      else
        { heap := heap2, visited := visited1, bestState := ls.bestState,
          bestF := ls.bestF, iterations := it }

/-- The while loop (src line 107): while open_list and iterations < 500.  The
fuel starts at 500 and falls by one per executed iteration, so fuel > 0 is
exactly iterations < 500; termination is structural on the fuel. -/
def searchLoop (shot_probs : Profile) (n_fielders : ℕ) : ℕ → LoopState → LoopState
  | 0, ls => ls
  | fuel + 1, ls =>
    if ls.heap = [] then ls
    else searchLoop shot_probs n_fielders fuel (stepOnce shot_probs n_fielders ls)

/-- The initial loop state (src lines 96-104): frontier holding the empty
state with f = heuristic([], shot_probs), empty visited dict, best_state the
empty state, best_f infinity, zero iterations. -/
def initState (shot_probs : Profile) : LoopState :=
  { heap := [(heuristic [] shot_probs, 0, [])], visited := [],
    bestState := [], bestF := none, iterations := 0 }

/-- The greedy padding loop (src lines 136-143): walk the catalog in order,
stopping as soon as the assigned set reaches the target size, and append each
zone not already assigned.  The Python set assigned is represented as a list;
the source iterates it in an unspecified (hash-dependent) set order, and every
theorem below is invariant under that order, so the representative order here
is: best-state zones first (canonical order), padded zones after, in catalog
order. -/
def padList (zs : List String) (acc : List String) (n_fielders : ℕ) : List String :=
  zs.foldl (fun acc2 z =>
    if n_fielders ≤ acc2.length then acc2
    else if z ∈ acc2 then acc2 else acc2 ++ [z]) acc

/-- One output fielder assignment (src lines 151-161). -/
structure Fielder where
  name : String
  zone : String
  x : ℚ
  y : ℚ
  coverage : ℚ
  is_key : Bool
deriving DecidableEq

/-- The 13 standard fielding position labels (src lines 147-150). -/
def standard_names : List String :=
  ["Wicket Keeper", "Slip", "Gully", "Point", "Cover", "Mid Off",
   "Mid On", "Mid Wicket", "Square Leg", "Fine Leg", "Long On", "Long Off",
   "Deep Mid Wicket"]

/-- The fielder record for the i-th assigned zone (src lines 151-161):
label from the standard list else "Fielder i+1", center coordinates,
coverage = round(prob * risk, 3) with prob = shot_probs.get(zone, 0.1),
is_key = prob > 0.4. -/
def mkFielder (shot_probs : Profile) (i : ℕ) (zone : String) : Fielder :=
  let c := zone_center zone
  let prob := dgetD shot_probs zone 0.1
  { name := standard_names.getD i ("Fielder " ++ toString (i + 1)),
    zone := zone, x := c.1, y := c.2,
    coverage := pyRound (prob * zoneRisk zone) 3,
    is_key := decide (0.4 < prob) }

/-- The enumerate loop of the result builder (src line 151). -/
def buildFielders (shot_probs : Profile) : ℕ → List String → List Fielder
  | _, [] => []
  | i, zone :: rest => mkFielder shot_probs i zone :: buildFielders shot_probs (i + 1) rest

/-- The stable descending coverage sort (src line 164): Python list.sort with
reverse=True is a stable sort under the total preorder coverage-greater-or-
equal. -/
def sortFielders (fs : List Fielder) : List Fielder :=
  fs.mergeSort (fun a b => decide (b.coverage ≤ a.coverage))

/-- The returned result record (src lines 170-179).  h_score none models the
(unreachable for executed searches with a nonempty frontier and positive
budget) case best_f = inf. -/
structure Result where
  delivery : String
  fielders : List Fielder
  efficiency : ℚ
  h_score : Option ℚ
  iterations : ℕ
  algorithm : String
  g_cost : ℕ
  h_cost : ℚ
deriving DecidableEq

/-- astar_field_placement (src lines 78-179): pick the profile, run the
bounded best-first search, pad the best state from the catalog, build and
sort the fielder records, and assemble the result record. -/
def placeWithProfile (shot_probs : Profile) (delivery_type : String) (n_fielders : ℕ) : Result :=
  let finalLS := searchLoop shot_probs n_fielders 500 (initState shot_probs)
  let assigned := padList catalogKeys finalLS.bestState n_fielders
  let fielders := sortFielders (buildFielders shot_probs 0 (assigned.take n_fielders))
  let total_risk := (shot_probs.map (fun zp => zp.2 * zoneRisk zp.1)).sum
  let covered_risk := (fielders.map Fielder.coverage).sum
  let efficiency := min 100 (pyRound (covered_risk / max total_risk 0.01 * 100) 1)
  { delivery := delivery_type,
    fielders := fielders,
    efficiency := efficiency,
    h_score := finalLS.bestF.map (fun b => pyRound b 3),
    iterations := finalLS.iterations,
    algorithm := "A* Search",
    g_cost := fielders.length,
    h_cost := pyRound (heuristic (fielders.map (fun f => zone_center f.zone)) shot_probs) 3 }

/-- The entry point astar_field_placement(delivery_type, n_fielders=9). -/
def astar_field_placement (delivery_type : String) (n_fielders : ℕ := 9) : Result :=
  placeWithProfile (shotProbsFor delivery_type) delivery_type n_fielders

/-- Modelled from the source module context: random is imported (src line 11)
but never referenced on any reachable path, so the state of the random number
generator is threaded through astar_field_placement unchanged and the result
cannot depend on it. -/
def astar_field_placement_with_rng (rng : ℕ) (delivery_type : String) (n_fielders : ℕ) :
    Result × ℕ :=
  (astar_field_placement delivery_type n_fielders, rng)

theorem dget_mem {β : Type} (l : List (String × β)) (a : String) (b : β)
    (h : dget l a = some b) : (a, b) ∈ l := by
  induction l with
  | nil => simp [dget] at h
  | cons kv rest ih =>
    obtain ⟨k, v⟩ := kv
    by_cases hk : k = a
    · subst hk
      simp [dget] at h
      subst h
      exact List.mem_cons_self _ _
    · simp [dget, hk] at h
      exact List.mem_cons_of_mem _ (ih h)

theorem zones_risk_nonneg : ∀ p ∈ ZONES, 0 ≤ p.2.risk := by
  intro p hp
  simp [ZONES] at hp
  rcases hp with h|h|h|h|h|h|h|h|h|h|h|h <;> subst h <;> norm_num

theorem zoneRisk_nonneg (z : String) : 0 ≤ zoneRisk z := by
  unfold zoneRisk
  cases hz : dget ZONES z with
  | none => exact le_rfl
  | some zd => exact zones_risk_nonneg _ (dget_mem _ _ _ hz)

theorem coverStep_subset (shot_probs : Profile) (cov : List String) (pos : ℚ × ℚ) :
    cov ⊆ coverStep shot_probs cov pos := by
  unfold coverStep
  cases nearestZone shot_probs pos with
  | none => exact fun a ha => ha
  | some bd =>
    by_cases h1 : bd.2 < 0.1225
    · by_cases h2 : bd.1 ∈ cov
      · simp [h1, h2]
      · simp only [h1, h2, if_true, if_false]
        exact List.subset_append_left _ _
    · simp [h1]

theorem coveredZones_extend (shot_probs : Profile) (S : List (ℚ × ℚ)) (p : ℚ × ℚ) :
    coveredZones (S ++ [p]) shot_probs =
      coverStep shot_probs (coveredZones S shot_probs) p := by
  unfold coveredZones
  rw [List.foldl_append]
  rfl

theorem sublist_sum_le {l1 l2 : List ℚ} (h : l1.Sublist l2) (hnn : ∀ a ∈ l2, 0 ≤ a) :
    l1.sum ≤ l2.sum := by
  induction h with
  | slnil => exact le_rfl
  | cons a hs ih =>
    rw [List.sum_cons]
    have h1 := ih (fun x hx => hnn x (List.mem_cons_of_mem _ hx))
    have h2 := hnn a (List.mem_cons_self _ _)
    linarith
  | cons₂ a hs ih =>
    rw [List.sum_cons, List.sum_cons]
    have h1 := ih (fun x hx => hnn x (List.mem_cons_of_mem _ hx))
    linarith

/-- Claim C3: for a fixed shot profile (probabilities being nonnegative, as
all profiles of this program are), adding a fielder position never increases
the heuristic value: the covered set only grows, the uncovered sum loses only
nonnegative terms, and the final rounding is monotone. -/
theorem c3_heuristic_monotone (shot_probs : Profile) (S : List (ℚ × ℚ)) (p : ℚ × ℚ)
    (hvals : ∀ zp ∈ shot_probs, 0 ≤ zp.2) :
    heuristic (S ++ [p]) shot_probs ≤ heuristic S shot_probs := by
  unfold heuristic
  apply pyRound_mono
  have hsub : coveredZones S shot_probs ⊆ coveredZones (S ++ [p]) shot_probs := by
    rw [coveredZones_extend]
    exact coverStep_subset _ _ _
  have hfil : (shot_probs.filter
      (fun zp => decide (zp.1 ∉ coveredZones (S ++ [p]) shot_probs))).Sublist
      (shot_probs.filter (fun zp => decide (zp.1 ∉ coveredZones S shot_probs))) := by
    apply List.monotone_filter_right
    intro a ha
    simp only [decide_eq_true_eq] at ha ⊢
    exact fun hmem => ha (hsub hmem)
  have hmap := hfil.map (fun zp => zp.2 * zoneRisk zp.1)
  apply sublist_sum_le hmap
  intro a ha
  simp only [List.mem_map] at ha
  obtain ⟨zp, hzp, rfl⟩ := ha
  have hzp2 := List.mem_of_mem_filter hzp
  exact mul_nonneg (hvals zp hzp2) (zoneRisk_nonneg zp.1)

/-- Claim C3 witness: the yorker profile has nonnegative probabilities, and
adding a fielder at the origin to the empty placement does not increase the
heuristic. -/
theorem c3_witness :
    heuristic [((0 : ℚ), (0 : ℚ))] (shotProbsFor "yorker") ≤
      heuristic [] (shotProbsFor "yorker") := by
  have h := c3_heuristic_monotone (shotProbsFor "yorker") [] ((0 : ℚ), (0 : ℚ))
    (by
      intro zp hzp
      simp [shotProbsFor, dget, DELIVERY_ZONE_PROBS] at hzp
      rcases hzp with h|h|h|h|h <;> subst h <;> norm_num)
  simpa using h

theorem heuristic_nil (shot_probs : Profile) :
    heuristic [] shot_probs =
      pyRound ((shot_probs.map (fun zp => zp.2 * zoneRisk zp.1)).sum) 4 := by
  unfold heuristic coveredZones
  simp

/-- Claim C4 counterexample: for the profile mapping "Fine Leg" to 1/100000,
the heuristic of the empty placement is 0 (the 4-decimal rounding collapses
the tiny sum), while the un-rounded uncovered-risk sum of the profile is
(1/100000) * 0.6, which is not 0. -/
theorem c4_counterexample :
    heuristic [] [("Fine Leg", (1 : ℚ)/100000)] ≠
      (([(("Fine Leg" : String), (1 : ℚ)/100000)].map
        (fun zp => zp.2 * zoneRisk zp.1)).sum) := by
  rw [heuristic_nil]
  norm_num [zoneRisk, dget, ZONES, pyRound, roundHalfEven, Rat.floor]

/-- Claim C4 (amended): the heuristic of an empty position list equals the
full uncovered-risk sum of the profile, rounded to 4 decimal places as the
source does (src line 76); the rounding is the identity on every profile of
the Delivery Profile Table. -/
theorem c4_heuristic_empty (shot_probs : Profile) :
    heuristic [] shot_probs =
      pyRound ((shot_probs.map (fun zp => zp.2 * zoneRisk zp.1)).sum) 4 := by
  unfold heuristic coveredZones
  simp

/-- Claim C9: astar_field_placement is a pure function of its two arguments;
in particular two calls with identical arguments return identical result
records, and the state of the imported (but never invoked) random number
generator is passed through unchanged and does not influence the result. -/
theorem c9_deterministic (rng1 rng2 : ℕ) (delivery_type : String) (n_fielders : ℕ) :
    (astar_field_placement_with_rng rng1 delivery_type n_fielders).1 =
      (astar_field_placement_with_rng rng2 delivery_type n_fielders).1 ∧
    (astar_field_placement_with_rng rng1 delivery_type n_fielders).2 = rng1 ∧
    astar_field_placement delivery_type n_fielders =
      astar_field_placement delivery_type n_fielders :=
  ⟨rfl, rfl, rfl⟩

theorem stepOnce_iterations_le (shot_probs : Profile) (n : ℕ) (ls : LoopState) :
    (stepOnce shot_probs n ls).iterations ≤ ls.iterations + 1 := by
  unfold stepOnce
  cases hpop : heappopL ls.heap with
  | none => exact Nat.le_succ _
  | some pr =>
    obtain ⟨⟨f, g, state⟩, heap1⟩ := pr
    dsimp only
    split_ifs <;> simp

theorem searchLoop_iterations_le (shot_probs : Profile) (n : ℕ) :
    ∀ (fuel : ℕ) (ls : LoopState),
      (searchLoop shot_probs n fuel ls).iterations ≤ ls.iterations + fuel := by
  intro fuel
  induction fuel with
  | zero => intro ls; simp [searchLoop]
  | succ fuel ih =>
    intro ls
    unfold searchLoop
    by_cases h : ls.heap = []
    · simp [h]
    · simp only [h, if_false]
      have h1 := ih (stepOnce shot_probs n ls)
      have h2 := stepOnce_iterations_le shot_probs n ls
      omega

theorem searchLoop_empty (shot_probs : Profile) (n fuel : ℕ) (ls : LoopState)
    (h : ls.heap = []) : searchLoop shot_probs n fuel ls = ls := by
  cases fuel with
  | zero => rfl
  | succ fuel => unfold searchLoop; simp [h]

/-- Claim C7: the search loop always terminates, stopping when the frontier
is empty (in which case it is the identity for any remaining budget) or after
at most 500 pop iterations, and the iteration count placed in the result
record never exceeds 500. -/
theorem c7_iteration_cap :
    (∀ (delivery_type : String) (n_fielders : ℕ),
      (astar_field_placement delivery_type n_fielders).iterations ≤ 500) ∧
    (∀ (shot_probs : Profile) (n_fielders fuel : ℕ) (ls : LoopState),
      ls.heap = [] → searchLoop shot_probs n_fielders fuel ls = ls) := by
  constructor
  · intro d n
    have h := searchLoop_iterations_le (shotProbsFor d) n 500 (initState (shotProbsFor d))
    simpa [astar_field_placement, placeWithProfile, initState] using h
  · intro probs n fuel ls h
    exact searchLoop_empty probs n fuel ls h

/-- Claim C7 witness: the cap holds for a concrete call, and the loop is the
identity on a concrete empty-frontier state. -/
theorem c7_witness :
    (astar_field_placement "yorker" 9).iterations ≤ 500 ∧
      searchLoop [] 9 500 ⟨[], [], [], none, 0⟩ = ⟨[], [], [], none, 0⟩ :=
  ⟨c7_iteration_cap.1 "yorker" 9, c7_iteration_cap.2 [] 9 500 ⟨[], [], [], none, 0⟩ rfl⟩

/-- Claim C6: an unknown delivery type never raises (the embedding of
astar_field_placement is a total function); the profile it searches with is
the fallback built from the first six catalog zones, each mapped to its own
risk weight. -/
theorem c6_unknown_delivery_fallback (delivery_type : String) (n_fielders : ℕ)
    (h : dget DELIVERY_ZONE_PROBS delivery_type = none) :
    shotProbsFor delivery_type = fallback_profile ∧
    fallback_profile = [("Fine Leg", 0.6), ("Square Leg", 0.8), ("Mid Wicket", 0.9),
      ("Mid On", 0.7), ("Mid Off", 0.7), ("Cover", 0.95)] ∧
    astar_field_placement delivery_type n_fielders =
      placeWithProfile fallback_profile delivery_type n_fielders := by
  have h1 : shotProbsFor delivery_type = fallback_profile := by
    unfold shotProbsFor
    rw [h]
  refine ⟨h1, by norm_num [fallback_profile, ZONES], ?_⟩
  unfold astar_field_placement
  rw [h1]

/-- Claim C6 witness: the delivery type of the spec example is not a table
key, so its call runs on the fallback profile. -/
theorem c6_witness :
    shotProbsFor "unknown-delivery-xyz" = fallback_profile ∧
    astar_field_placement "unknown-delivery-xyz" 9 =
      placeWithProfile fallback_profile "unknown-delivery-xyz" 9 := by
  have h := c6_unknown_delivery_fallback "unknown-delivery-xyz" 9
    (by simp [dget, DELIVERY_ZONE_PROBS])
  exact ⟨h.1, h.2.2⟩

theorem table_profiles_nonneg : ∀ pr ∈ DELIVERY_ZONE_PROBS, ∀ zp ∈ pr.2, 0 ≤ zp.2 := by
  intro pr hpr
  fin_cases hpr <;> norm_num [List.forall_mem_cons]

theorem fallback_profile_eq :
    fallback_profile = [("Fine Leg", 0.6), ("Square Leg", 0.8), ("Mid Wicket", 0.9),
      ("Mid On", 0.7), ("Mid Off", 0.7), ("Cover", 0.95)] := by
  norm_num [fallback_profile, ZONES]

theorem fallback_profile_nonneg : ∀ zp ∈ fallback_profile, 0 ≤ zp.2 := by
  rw [fallback_profile_eq]
  norm_num [List.forall_mem_cons]

theorem shotProbsFor_nonneg (delivery_type : String) :
    ∀ zp ∈ shotProbsFor delivery_type, 0 ≤ zp.2 := by
  unfold shotProbsFor
  cases hd : dget DELIVERY_ZONE_PROBS delivery_type with
  | none => exact fallback_profile_nonneg
  | some p =>
    by_cases hp : p = []
    · simp only [hp, if_true]
      exact fallback_profile_nonneg
    · simp only [hp, if_false]
      exact table_profiles_nonneg (delivery_type, p) (dget_mem _ _ _ hd)

theorem dgetD_nonneg (shot_probs : Profile) (z : String)
    (hprobs : ∀ zp ∈ shot_probs, 0 ≤ zp.2) : 0 ≤ dgetD shot_probs z 0.1 := by
  unfold dgetD
  cases hz : dget shot_probs z with
  | none => norm_num
  | some v => exact hprobs (z, v) (dget_mem _ _ _ hz)

theorem mkFielder_coverage_nonneg (shot_probs : Profile) (i : ℕ) (zone : String)
    (hprobs : ∀ zp ∈ shot_probs, 0 ≤ zp.2) : 0 ≤ (mkFielder shot_probs i zone).coverage := by
  unfold mkFielder
  exact pyRound_nonneg 3 (mul_nonneg (dgetD_nonneg _ _ hprobs) (zoneRisk_nonneg zone))

theorem buildFielders_mem (shot_probs : Profile) :
    ∀ (l : List String) (i : ℕ) (f : Fielder), f ∈ buildFielders shot_probs i l →
      ∃ j zone, j < l.length ∧ zone ∈ l ∧ f = mkFielder shot_probs (i + j) zone := by
  intro l
  induction l with
  | nil => intro i f h; simp [buildFielders] at h
  | cons z rest ih =>
    intro i f h
    rcases List.mem_cons.mp h with h1 | h1
    · exact ⟨0, z, by simp, List.mem_cons_self _ _, by simpa using h1⟩
    · obtain ⟨j, zone, hj, hz, hf⟩ := ih (i + 1) f h1
      exact ⟨j + 1, zone, by simpa using Nat.succ_lt_succ hj,
        List.mem_cons_of_mem _ hz, by rw [hf]; ring_nf⟩

theorem sortFielders_coverage_nonneg (shot_probs : Profile) (l : List String)
    (hprobs : ∀ zp ∈ shot_probs, 0 ≤ zp.2) :
    ∀ f ∈ sortFielders (buildFielders shot_probs 0 l), 0 ≤ f.coverage := by
  intro f hf
  have hmem : f ∈ buildFielders shot_probs 0 l :=
    (List.mergeSort_perm (buildFielders shot_probs 0 l) _).mem_iff.mp hf
  obtain ⟨j, zone, _, _, hfe⟩ := buildFielders_mem shot_probs l 0 f hmem
  rw [hfe]
  exact mkFielder_coverage_nonneg _ _ _ hprobs

/-- Claim C5: for every delivery type string and every fielder count, the
efficiency in the result record lies in [0, 100]: the covered-risk numerator
is a sum of nonnegative coverages, the denominator is clamped to at least
0.01, rounding preserves sign, and the final min clamps to 100. -/
theorem c5_efficiency_bounds (delivery_type : String) (n_fielders : ℕ) :
    0 ≤ (astar_field_placement delivery_type n_fielders).efficiency ∧
      (astar_field_placement delivery_type n_fielders).efficiency ≤ 100 := by
  unfold astar_field_placement placeWithProfile
  dsimp only
  constructor
  · apply le_min (by norm_num)
    apply pyRound_nonneg
    apply mul_nonneg _ (by norm_num : (0:ℚ) ≤ 100)
    apply div_nonneg
    · apply List.sum_nonneg
      intro x hx
      obtain ⟨f, hf, rfl⟩ := List.mem_map.mp hx
      exact sortFielders_coverage_nonneg _ _ (shotProbsFor_nonneg delivery_type) f hf
    · exact le_trans (by norm_num : (0:ℚ) ≤ 0.01) (le_max_right _ _)
  · exact min_le_left _ _

theorem mem_insertSorted (z a : String) (s : List String) :
    a ∈ insertSorted z s ↔ a = z ∨ a ∈ s := by
  induction s with
  | nil => simp [insertSorted]
  | cons b rest ih =>
    unfold insertSorted
    by_cases h1 : z = b
    · rw [if_pos h1]
      subst h1
      simp only [List.mem_cons]
      tauto
    · rw [if_neg h1]
      by_cases h2 : z < b
      · rw [if_pos h2]
        simp only [List.mem_cons]
      · rw [if_neg h2]
        simp only [List.mem_cons, ih]
        tauto

theorem sorted_insertSorted (z : String) (s : List String)
    (hs : s.Sorted (fun a b => a < b)) :
    (insertSorted z s).Sorted (fun a b => a < b) := by
  induction s with
  | nil => simp [insertSorted]
  | cons b rest ih =>
    rw [List.sorted_cons] at hs
    obtain ⟨hb, hrest⟩ := hs
    unfold insertSorted
    by_cases h1 : z = b
    · rw [if_pos h1, List.sorted_cons]
      exact ⟨hb, hrest⟩
    · rw [if_neg h1]
      by_cases h2 : z < b
      · rw [if_pos h2, List.sorted_cons]
        refine ⟨?_, ?_⟩
        · intro c hc
          rcases List.mem_cons.mp hc with rfl | hc2
          · exact h2
          · exact lt_trans h2 (hb c hc2)
        · rw [List.sorted_cons]
          exact ⟨hb, hrest⟩
      · rw [if_neg h2]
        have hbz : b < z := lt_of_le_of_ne (not_lt.mp h2) (Ne.symm h1)
        rw [List.sorted_cons]
        refine ⟨?_, ih hrest⟩
        intro c hc
        rcases (mem_insertSorted z c rest).mp hc with rfl | hc2
        · exact hbz
        · exact hb c hc2

theorem length_insertSorted (z : String) (s : List String) (hz : z ∉ s) :
    (insertSorted z s).length = s.length + 1 := by
  induction s with
  | nil => rfl
  | cons b rest ih =>
    have h1 : z ≠ b := by
      intro h
      exact hz (h ▸ List.mem_cons_self b rest)
    unfold insertSorted
    rw [if_neg h1]
    by_cases h2 : z < b
    · rw [if_pos h2]
      simp
    · rw [if_neg h2]
      simp only [List.length_cons]
      rw [ih (fun h => hz (List.mem_cons_of_mem _ h))]

theorem sorted_lt_nodup (s : List String) (hs : s.Sorted (fun a b => a < b)) : s.Nodup :=
  hs.imp (fun h => ne_of_lt h)

theorem hget_mem_or (h : List Entry) (i : ℕ) : hget h i ∈ h ∨ hget h i = dummyEntry := by
  unfold hget
  rcases Nat.lt_or_ge i h.length with hlt | hge
  · left
    rw [List.getD_eq_getElem?_getD, List.getElem?_eq_getElem hlt]
    exact List.getElem_mem hlt
  · right
    rw [List.getD_eq_getElem?_getD, List.getElem?_eq_none hge]
    rfl

theorem hset_mem (h : List Entry) (i : ℕ) (e x : Entry) (hx : x ∈ hset h i e) :
    x ∈ h ∨ x = e := List.mem_or_eq_of_mem_set hx

theorem siftdownAux_mem : ∀ (fuel : ℕ) (heap : List Entry) (sp pos : ℕ) (item x : Entry),
    x ∈ siftdownAux fuel heap sp pos item → x ∈ heap ∨ x = item ∨ x = dummyEntry := by
  intro fuel
  induction fuel with
  | zero =>
    intro heap sp pos item x hx
    rcases hset_mem _ _ _ _ hx with h | h
    · exact Or.inl h
    · exact Or.inr (Or.inl h)
  | succ fuel ih =>
    intro heap sp pos item x hx
    unfold siftdownAux at hx
    by_cases h1 : sp < pos
    · rw [if_pos h1] at hx
      dsimp only at hx
      by_cases h2 : entryLt item (hget heap ((pos - 1) / 2)) = true
      · rw [if_pos h2] at hx
        rcases ih _ _ _ _ _ hx with h3 | h3 | h3
        · rcases hset_mem _ _ _ _ h3 with h4 | h4
          · exact Or.inl h4
          · rcases hget_mem_or heap ((pos - 1) / 2) with h5 | h5
            · exact Or.inl (h4 ▸ h5)
            · exact Or.inr (Or.inr (h4 ▸ h5))
        · exact Or.inr (Or.inl h3)
        · exact Or.inr (Or.inr h3)
      · rw [if_neg h2] at hx
        rcases hset_mem _ _ _ _ hx with h3 | h3
        · exact Or.inl h3
        · exact Or.inr (Or.inl h3)
    · rw [if_neg h1] at hx
      rcases hset_mem _ _ _ _ hx with h3 | h3
      · exact Or.inl h3
      · exact Or.inr (Or.inl h3)

theorem siftupAux_mem : ∀ (fuel : ℕ) (heap : List Entry) (pos : ℕ) (x : Entry),
    x ∈ (siftupAux fuel heap pos).1 → x ∈ heap ∨ x = dummyEntry := by
  intro fuel
  induction fuel with
  | zero => intro heap pos x hx; exact Or.inl hx
  | succ fuel ih =>
    intro heap pos x hx
    unfold siftupAux at hx
    dsimp only at hx
    by_cases h1 : 2 * pos + 1 < heap.length
    · rw [if_pos h1] at hx
      rcases ih _ _ _ hx with h2 | h2
      · rcases hset_mem _ _ _ _ h2 with h3 | h3
        · exact Or.inl h3
        · rcases hget_mem_or heap _ with h4 | h4
          · exact Or.inl (h3 ▸ h4)
          · exact Or.inr (h3 ▸ h4)
      · exact Or.inr h2
    · rw [if_neg h1] at hx
      exact Or.inl hx

theorem siftupL_mem (heap : List Entry) (pos : ℕ) (item x : Entry)
    (hx : x ∈ siftupL heap pos item) : x ∈ heap ∨ x = item ∨ x = dummyEntry := by
  unfold siftupL at hx
  dsimp only at hx
  rcases siftdownAux_mem _ _ _ _ _ _ hx with h | h | h
  · rcases hset_mem _ _ _ _ h with h2 | h2
    · rcases siftupAux_mem _ _ _ _ h2 with h3 | h3
      · exact Or.inl h3
      · exact Or.inr (Or.inr h3)
    · exact Or.inr (Or.inl h2)
  · exact Or.inr (Or.inl h)
  · exact Or.inr (Or.inr h)

theorem heappushL_mem (heap : List Entry) (e x : Entry) (hx : x ∈ heappushL heap e) :
    x ∈ heap ∨ x = e ∨ x = dummyEntry := by
  unfold heappushL at hx
  rcases siftdownAux_mem _ _ _ _ _ _ hx with h | h | h
  · rcases List.mem_append.mp h with h2 | h2
    · exact Or.inl h2
    · simp at h2
      exact Or.inr (Or.inl h2)
  · exact Or.inr (Or.inl h)
  · exact Or.inr (Or.inr h)

theorem heappopL_mem (heap : List Entry) (e : Entry) (rest : List Entry)
    (h : heappopL heap = some (e, rest)) :
    (e ∈ heap ∨ e = dummyEntry) ∧ ∀ x ∈ rest, x ∈ heap ∨ x = dummyEntry := by
  cases heap with
  | nil => simp [heappopL] at h
  | cons a t =>
    unfold heappopL at h
    dsimp only at h
    by_cases h1 : (a :: t).dropLast.length = 0
    · rw [if_pos h1] at h
      rw [Option.some.injEq, Prod.mk.injEq] at h
      obtain ⟨he, hr⟩ := h
      constructor
      · rw [← he]
        exact hget_mem_or _ _
      · intro x hx
        rw [← hr] at hx
        exact Or.inl ((List.dropLast_sublist (a :: t)).subset hx)
    · rw [if_neg h1] at h
      rw [Option.some.injEq, Prod.mk.injEq] at h
      obtain ⟨he, hr⟩ := h
      constructor
      · rw [← he]
        rcases hget_mem_or (a :: t).dropLast 0 with h2 | h2
        · exact Or.inl ((List.dropLast_sublist (a :: t)).subset h2)
        · exact Or.inr h2
      · intro x hx
        rw [← hr] at hx
        rcases siftupL_mem _ _ _ _ hx with h2 | h2 | h2
        · rcases hset_mem _ _ _ _ h2 with h3 | h3
          · exact Or.inl ((List.dropLast_sublist (a :: t)).subset h3)
          · rcases hget_mem_or (a :: t) ((a :: t).length - 1) with h4 | h4
            · exact Or.inl (h3 ▸ h4)
            · exact Or.inr (h3 ▸ h4)
        · rcases hget_mem_or (a :: t) ((a :: t).length - 1) with h4 | h4
          · exact Or.inl (h2 ▸ h4)
          · exact Or.inr (h2 ▸ h4)
        · exact Or.inr h2

/-- The structural invariant of every search state reachable for a given
profile and fielder target: canonically sorted, drawn from the profile keys,
and no larger than the target (expansion only grows states of size below the
target by one fresh zone). -/
def StateOK (keys : List String) (n : ℕ) (s : List String) : Prop :=
  s.Sorted (fun a b => a < b) ∧ (∀ z ∈ s, z ∈ keys) ∧ s.length ≤ n

theorem stateOK_nil (keys : List String) (n : ℕ) : StateOK keys n [] :=
  ⟨List.sorted_nil, by simp, by simp⟩

theorem stateOK_insert (keys : List String) (n : ℕ) (s : List String) (z : String)
    (h : StateOK keys n s) (hz : z ∈ keys) (hzs : z ∉ s) (hlen : s.length < n) :
    StateOK keys n (insertSorted z s) := by
  obtain ⟨h1, h2, h3⟩ := h
  refine ⟨sorted_insertSorted z s h1, ?_, ?_⟩
  · intro a ha
    rcases (mem_insertSorted z a s).mp ha with rfl | ha2
    · exact hz
    · exact h2 a ha2
  · rw [length_insertSorted z s hzs]
    omega

theorem expandPush_inv (Q : Entry → Prop) (shot_probs : Profile) (g : ℕ)
    (state : List String) (hdum : Q dummyEntry) :
    ∀ (probs2 : List (String × ℚ)) (heap : List Entry),
      (∀ x ∈ heap, Q x) →
      (∀ zp ∈ probs2, zp.1 ∉ state → Q (childEntry shot_probs g state zp.1)) →
      ∀ x ∈ probs2.foldl (fun h zp =>
          if zp.1 ∈ state then h
          else heappushL h (childEntry shot_probs g state zp.1)) heap, Q x := by
  intro probs2
  induction probs2 with
  | nil => intro heap hheap _ x hx; exact hheap x hx
  | cons zp rest ih =>
    intro heap hheap hchild x hx
    rw [List.foldl_cons] at hx
    refine ih _ ?_ (fun w hw hwn => hchild w (List.mem_cons_of_mem _ hw) hwn) x hx
    intro y hy
    by_cases hz : zp.1 ∈ state
    · rw [if_pos hz] at hy
      exact hheap y hy
    · rw [if_neg hz] at hy
      rcases heappushL_mem _ _ _ hy with h2 | h2 | h2
      · exact hheap y h2
      · rw [h2]
        exact hchild zp (List.mem_cons_self _ _) hz
      · rw [h2]
        exact hdum

theorem expandPush_inv_self (Q : Entry → Prop) (shot_probs : Profile) (g : ℕ)
    (state : List String) (heap : List Entry) (hdum : Q dummyEntry)
    (hheap : ∀ x ∈ heap, Q x)
    (hchild : ∀ zp ∈ shot_probs, zp.1 ∉ state → Q (childEntry shot_probs g state zp.1)) :
    ∀ x ∈ expandPush shot_probs g state heap, Q x :=
  expandPush_inv Q shot_probs g state hdum shot_probs heap hheap hchild

/-- Invariant of a whole loop state: every heap entry state and the best
state satisfy StateOK. -/
def HeapBestOK (keys : List String) (n : ℕ) (ls : LoopState) : Prop :=
  (∀ x ∈ ls.heap, StateOK keys n x.2.2) ∧ StateOK keys n ls.bestState

theorem stepOnce_stateOK (shot_probs : Profile) (n : ℕ) (ls : LoopState)
    (h : HeapBestOK (shot_probs.map Prod.fst) n ls) :
    HeapBestOK (shot_probs.map Prod.fst) n (stepOnce shot_probs n ls) := by
  obtain ⟨hheap, hbest⟩ := h
  unfold stepOnce
  cases hpop : heappopL ls.heap with
  | none => exact ⟨hheap, hbest⟩
  | some pr =>
    obtain ⟨⟨f, g, state⟩, heap1⟩ := pr
    have hpm := heappopL_mem ls.heap _ _ hpop
    have hstate : StateOK (shot_probs.map Prod.fst) n state := by
      rcases hpm.1 with h2 | h2
      · exact hheap _ h2
      · have h3 : state = [] := congrArg (fun e => e.2.2) h2
        rw [h3]
        exact stateOK_nil _ _
    have hheap1 : ∀ x ∈ heap1, StateOK (shot_probs.map Prod.fst) n x.2.2 := by
      intro x hx
      rcases hpm.2 x hx with h2 | h2
      · exact hheap x h2
      · rw [h2]
        exact stateOK_nil _ _
    dsimp only
    by_cases hc1 : n ≤ state.length
    · rw [if_pos hc1]
      by_cases hc2 : ltInfB f ls.bestF = true
      · rw [if_pos hc2]
        exact ⟨hheap1, hstate⟩
      · rw [if_neg hc2]
        exact ⟨hheap1, hbest⟩
    · rw [if_neg hc1]
      by_cases hc3 : visitedLeB ls.visited state g = true
      · rw [if_pos hc3]
        exact ⟨hheap1, hbest⟩
      · rw [if_neg hc3]
        have hheap2 : ∀ x ∈ expandPush shot_probs g state heap1,
            StateOK (shot_probs.map Prod.fst) n x.2.2 := by
          apply expandPush_inv_self (fun e => StateOK (shot_probs.map Prod.fst) n e.2.2)
          · exact stateOK_nil _ _
          · exact hheap1
          · intro zp hzp hzn
            exact stateOK_insert _ _ _ _ hstate (List.mem_map.mpr ⟨zp, hzp, rfl⟩) hzn
              (Nat.not_le.mp hc1)
        by_cases hc4 : ltInfB f ls.bestF = true ∧ state ≠ []
        · rw [if_pos hc4]
          exact ⟨hheap2, hstate⟩
        · rw [if_neg hc4]
          exact ⟨hheap2, hbest⟩

theorem searchLoop_stateOK (shot_probs : Profile) (n : ℕ) :
    ∀ (fuel : ℕ) (ls : LoopState), HeapBestOK (shot_probs.map Prod.fst) n ls →
      HeapBestOK (shot_probs.map Prod.fst) n (searchLoop shot_probs n fuel ls) := by
  intro fuel
  induction fuel with
  | zero => intro ls h; exact h
  | succ fuel ih =>
    intro ls h
    unfold searchLoop
    by_cases he : ls.heap = []
    · rw [if_pos he]
      exact h
    · rw [if_neg he]
      exact ih _ (stepOnce_stateOK shot_probs n ls h)

theorem initState_stateOK (shot_probs : Profile) (n : ℕ) :
    HeapBestOK (shot_probs.map Prod.fst) n (initState shot_probs) := by
  constructor
  · intro x hx
    simp only [initState, List.mem_singleton] at hx
    rw [hx]
    exact stateOK_nil _ _
  · exact stateOK_nil _ _

theorem bestState_ok (shot_probs : Profile) (n : ℕ) :
    StateOK (shot_probs.map Prod.fst) n
      (searchLoop shot_probs n 500 (initState shot_probs)).bestState :=
  (searchLoop_stateOK shot_probs n 500 (initState shot_probs)
    (initState_stateOK shot_probs n)).2

theorem padList_subset_acc : ∀ (zs acc : List String) (n : ℕ), acc ⊆ padList zs acc n := by
  intro zs
  induction zs with
  | nil => intro acc n a ha; exact ha
  | cons z rest ih =>
    intro acc n a ha
    unfold padList
    rw [List.foldl_cons]
    have hstep : acc ⊆ (if n ≤ acc.length then acc else if z ∈ acc then acc else acc ++ [z]) := by
      split_ifs
      · exact fun x hx => hx
      · exact fun x hx => hx
      · exact List.subset_append_left _ _
    exact ih _ n (hstep ha)

theorem padList_mem_or : ∀ (zs acc : List String) (n : ℕ), ∀ x ∈ padList zs acc n,
    x ∈ acc ∨ x ∈ zs := by
  intro zs
  induction zs with
  | nil => intro acc n x hx; exact Or.inl hx
  | cons z rest ih =>
    intro acc n x hx
    unfold padList at hx
    rw [List.foldl_cons] at hx
    rcases ih _ n x hx with h | h
    · split_ifs at h
      · exact Or.inl h
      · exact Or.inl h
      · rcases List.mem_append.mp h with h2 | h2
        · exact Or.inl h2
        · simp only [List.mem_singleton] at h2
          exact Or.inr (h2 ▸ List.mem_cons_self _ _)
    · exact Or.inr (List.mem_cons_of_mem _ h)

theorem padList_nodup : ∀ (zs acc : List String) (n : ℕ), acc.Nodup →
    (padList zs acc n).Nodup := by
  intro zs
  induction zs with
  | nil => intro acc n h; exact h
  | cons z rest ih =>
    intro acc n h
    unfold padList
    rw [List.foldl_cons]
    apply ih
    split_ifs with c1 c2
    · exact h
    · exact h
    · rw [List.nodup_append]
      refine ⟨h, List.nodup_singleton z, ?_⟩
      intro a ha hb
      simp only [List.mem_singleton] at hb
      subst hb
      exact c2 ha

theorem length_filter_split (p : String → Bool) : ∀ (l : List String),
    (l.filter p).length + (l.filter (fun a => ! p a)).length = l.length := by
  intro l
  induction l with
  | nil => rfl
  | cons a t ih =>
    by_cases h : p a = true
    · simp [List.filter_cons, h]
      omega
    · have h2 : p a = false := by
        simp only [Bool.not_eq_true] at h
        exact h
      simp [List.filter_cons, h2]
      omega

theorem filter_mem_length (zs acc : List String) (hzs : zs.Nodup) (hacc : acc.Nodup)
    (hsub : ∀ a ∈ acc, a ∈ zs) :
    (zs.filter (fun z => decide (z ∈ acc))).length = acc.length := by
  have hperm : (zs.filter (fun z => decide (z ∈ acc))).Perm acc := by
    rw [List.perm_ext_iff_of_nodup (hzs.filter _) hacc]
    intro a
    simp only [List.mem_filter, decide_eq_true_eq]
    constructor
    · exact fun h => h.2
    · intro h
      exact ⟨hsub a h, h⟩
  exact hperm.length_eq

theorem filter_not_mem_length (zs acc : List String) (hzs : zs.Nodup) (hacc : acc.Nodup)
    (hsub : ∀ a ∈ acc, a ∈ zs) :
    (zs.filter (fun z => decide (z ∉ acc))).length = zs.length - acc.length := by
  have h1 := length_filter_split (fun z => decide (z ∈ acc)) zs
  have h2 := filter_mem_length zs acc hzs hacc hsub
  have h3 : zs.filter (fun a => ! decide (a ∈ acc)) = zs.filter (fun z => decide (z ∉ acc)) := by
    apply List.filter_congr
    intro a _
    simp [decide_not]
  rw [h3] at h1
  omega

theorem padList_length : ∀ (zs : List String), zs.Nodup →
    ∀ (acc : List String) (n : ℕ), acc.Nodup → acc.length ≤ n →
    (padList zs acc n).length =
      min n (acc.length + (zs.filter (fun z => decide (z ∉ acc))).length) := by
  intro zs
  induction zs with
  | nil =>
    intro _ acc n _ hlen
    simp only [padList, List.foldl_nil, List.filter_nil, List.length_nil, Nat.add_zero]
    omega
  | cons z rest ih =>
    intro hnd acc n hacc hlen
    have hz_rest : z ∉ rest := (List.nodup_cons.mp hnd).1
    have hnd_rest := (List.nodup_cons.mp hnd).2
    unfold padList
    rw [List.foldl_cons]
    by_cases c1 : n ≤ acc.length
    · have hacclen : acc.length = n := le_antisymm hlen c1
      rw [if_pos c1]
      have h2 := ih hnd_rest acc n hacc hlen
      unfold padList at h2
      rw [h2]
      omega
    · rw [if_neg c1]
      by_cases c2 : z ∈ acc
      · rw [if_pos c2]
        have h2 := ih hnd_rest acc n hacc hlen
        unfold padList at h2
        rw [h2, List.filter_cons]
        simp [c2]
      · rw [if_neg c2]
        have hacc2 : (acc ++ [z]).Nodup := by
          rw [List.nodup_append]
          refine ⟨hacc, List.nodup_singleton z, ?_⟩
          intro a ha hb
          simp only [List.mem_singleton] at hb
          subst hb
          exact c2 ha
        have hlen2 : (acc ++ [z]).length ≤ n := by
          simp only [List.length_append, List.length_singleton]
          omega
        have h2 := ih hnd_rest (acc ++ [z]) n hacc2 hlen2
        unfold padList at h2
        have hcong : rest.filter (fun w => decide (w ∉ acc ++ [z])) =
            rest.filter (fun w => decide (w ∉ acc)) := by
          apply List.filter_congr
          intro a ha
          have haz : a ≠ z := fun hh => hz_rest (hh ▸ ha)
          simp [List.mem_append, haz]
        rw [hcong] at h2
        rw [h2, List.filter_cons]
        simp [c2]
        omega

theorem buildFielders_length (shot_probs : Profile) : ∀ (l : List String) (i : ℕ),
    (buildFielders shot_probs i l).length = l.length := by
  intro l
  induction l with
  | nil => intro i; rfl
  | cons z rest ih => intro i; simp [buildFielders, ih]

theorem buildFielders_zones (shot_probs : Profile) : ∀ (l : List String) (i : ℕ),
    (buildFielders shot_probs i l).map Fielder.zone = l := by
  intro l
  induction l with
  | nil => intro i; rfl
  | cons z rest ih => intro i; simp [buildFielders, mkFielder, ih]

theorem catalogKeys_nodup : catalogKeys.Nodup := by decide

theorem catalogKeys_length : catalogKeys.length = 12 := by decide

theorem shotProbsFor_keys_subset (delivery_type : String) :
    ∀ z ∈ (shotProbsFor delivery_type).map Prod.fst, z ∈ catalogKeys := by
  have hfall : ∀ z ∈ fallback_profile.map Prod.fst, z ∈ catalogKeys := by
    rw [fallback_profile_eq]
    decide
  have htab : ∀ pr ∈ DELIVERY_ZONE_PROBS, ∀ z ∈ pr.2.map Prod.fst, z ∈ catalogKeys := by
    decide
  unfold shotProbsFor
  cases hd : dget DELIVERY_ZONE_PROBS delivery_type with
  | none => exact hfall
  | some p =>
    by_cases hp : p = []
    · simp only [hp, if_true]
      exact hfall
    · simp only [hp, if_false]
      exact htab (delivery_type, p) (dget_mem _ _ _ hd)

theorem placeWithProfile_count (shot_probs : Profile) (delivery_type : String) (n : ℕ)
    (hkeys : ∀ z ∈ shot_probs.map Prod.fst, z ∈ catalogKeys) :
    (placeWithProfile shot_probs delivery_type n).fielders.length = min n 12 ∧
    ((placeWithProfile shot_probs delivery_type n).fielders.map Fielder.zone).Nodup := by
  obtain ⟨hsorted, hbkeys, hblen⟩ := bestState_ok shot_probs n
  have hbnodup := sorted_lt_nodup _ hsorted
  have hbcat : ∀ a ∈ (searchLoop shot_probs n 500 (initState shot_probs)).bestState,
      a ∈ catalogKeys := fun a ha => hkeys a (hbkeys a ha)
  have hpadlen : (padList catalogKeys
      (searchLoop shot_probs n 500 (initState shot_probs)).bestState n).length = min n 12 := by
    rw [padList_length catalogKeys catalogKeys_nodup _ n hbnodup hblen]
    rw [filter_not_mem_length catalogKeys _ catalogKeys_nodup hbnodup hbcat]
    have hb12 : (searchLoop shot_probs n 500 (initState shot_probs)).bestState.length ≤ 12 := by
      have h1 := (hbnodup.subperm hbcat).length_le
      rw [catalogKeys_length] at h1
      exact h1
    rw [catalogKeys_length]
    omega
  have hpadnodup := padList_nodup catalogKeys _ n hbnodup
  unfold placeWithProfile
  dsimp only
  constructor
  · unfold sortFielders
    rw [List.length_mergeSort, buildFielders_length, List.length_take, hpadlen]
    omega
  · have hperm := List.mergeSort_perm
      (buildFielders shot_probs 0 ((padList catalogKeys
        (searchLoop shot_probs n 500 (initState shot_probs)).bestState n).take n))
      (fun a b => decide (b.coverage ≤ a.coverage))
    have hzones := hperm.map Fielder.zone
    rw [buildFielders_zones] at hzones
    unfold sortFielders
    rw [hzones.nodup_iff]
    exact List.Nodup.sublist (List.take_sublist n _) hpadnodup

/-- Claim C2: for every delivery type present in the Delivery Profile Table
and every positive fielder count, the result carries exactly
min(fielder_count, 12) assignments (12 = catalog size) and their zones are
pairwise distinct: the best state is a subset of the profile keys of size at
most the target, and the catalog padding loop tops it up to exactly the
minimum, without duplicates. -/
theorem c2_assignment_count (delivery_type : String) (ps : Profile) (n_fielders : ℕ)
    (hd : dget DELIVERY_ZONE_PROBS delivery_type = some ps) (hn : 0 < n_fielders) :
    (astar_field_placement delivery_type n_fielders).fielders.length = min n_fielders 12 ∧
    ((astar_field_placement delivery_type n_fielders).fielders.map Fielder.zone).Nodup := by
  unfold astar_field_placement
  exact placeWithProfile_count (shotProbsFor delivery_type) delivery_type n_fielders
    (shotProbsFor_keys_subset delivery_type)

/-- Claim C2 witness: the yorker call with 9 fielders yields exactly
min(9, 12) = 9 assignments with pairwise distinct zones. -/
theorem c2_witness :
    (astar_field_placement "yorker" 9).fielders.length = min 9 12 ∧
    ((astar_field_placement "yorker" 9).fielders.map Fielder.zone).Nodup :=
  c2_assignment_count "yorker"
    [("Fine Leg", 0.4), ("Square Leg", 0.3), ("Mid Wicket", 0.2), ("Mid On", 0.1), ("Cover", 0.1)]
    9 (by simp [dget, DELIVERY_ZONE_PROBS]) (by norm_num)

theorem getD_mem_of_lt {α : Type} (l : List α) (i : ℕ) (d : α) (h : i < l.length) :
    l.getD i d ∈ l := by
  rw [List.getD_eq_getElem?_getD, List.getElem?_eq_getElem h]
  exact List.getElem_mem h

/-- Claim C10: every call produces at most 12 assignments (the catalog
size), so every fielder label is drawn from the fixed 13-entry list of
standard position names and the overflow label is never used. -/
theorem c10_standard_labels (delivery_type : String) (n_fielders : ℕ) :
    (astar_field_placement delivery_type n_fielders).fielders.length ≤ 12 ∧
    ∀ f ∈ (astar_field_placement delivery_type n_fielders).fielders,
      f.name ∈ standard_names := by
  have hcount := placeWithProfile_count (shotProbsFor delivery_type) delivery_type n_fielders
    (shotProbsFor_keys_subset delivery_type)
  constructor
  · show (astar_field_placement delivery_type n_fielders).fielders.length ≤ 12
    unfold astar_field_placement
    rw [hcount.1]
    omega
  · intro f hf
    unfold astar_field_placement placeWithProfile at hf
    dsimp only at hf
    unfold sortFielders at hf
    have hmem := (List.mergeSort_perm _ _).mem_iff.mp hf
    obtain ⟨j, zone, hj, _, hfe⟩ := buildFielders_mem _ _ _ _ hmem
    have hlen := hcount.1
    unfold astar_field_placement placeWithProfile at hlen
    dsimp only at hlen
    unfold sortFielders at hlen
    rw [List.length_mergeSort, buildFielders_length] at hlen
    have hj12 : j < 12 := by
      rw [hlen] at hj
      omega
    rw [hfe]
    unfold mkFielder
    dsimp only
    apply getD_mem_of_lt
    have : standard_names.length = 13 := by decide
    omega

/-- The f-value an entry for state s must carry: g is always the state size
and h is the heuristic over the centers of the state zones, so f = g + h is a
function of the state alone. -/
def fval (shot_probs : Profile) (s : List String) : ℚ :=
  (s.length : ℚ) + heuristic (s.map zone_center) shot_probs

/-- The invariant of a single frontier entry: the g component is the state
size, and for nonempty states the f component equals fval of the state. -/
def EntryOK (shot_probs : Profile) (e : Entry) : Prop :=
  e.2.1 = e.2.2.length ∧ (e.2.2 ≠ [] → e.1 = fval shot_probs e.2.2)

/-- The loop invariant behind secondary candidate tracking: every frontier
entry carries the f of its state, and every nonempty state recorded in the
visited map has f not below the current best-so-far f (it was offered to the
best-candidate update when first expanded, and best_f only decreases). -/
def SearchInv (shot_probs : Profile) (ls : LoopState) : Prop :=
  (∀ e ∈ ls.heap, EntryOK shot_probs e) ∧
  (∀ kv ∈ ls.visited, kv.1 ≠ [] → ltInfB (fval shot_probs kv.1) ls.bestF = false)

theorem entryOK_dummy (shot_probs : Profile) : EntryOK shot_probs dummyEntry :=
  ⟨rfl, fun h => absurd rfl h⟩

theorem entryOK_child (shot_probs : Profile) (g : ℕ) (s : List String) (z : String)
    (hg : g = s.length) (hz : z ∉ s) :
    EntryOK shot_probs (childEntry shot_probs g s z) := by
  unfold childEntry
  dsimp only
  constructor
  · dsimp only
    rw [length_insertSorted z s hz, hg]
  · intro _
    unfold fval
    rw [length_insertSorted z s hz, hg]

theorem visitedGet_mem : ∀ (v : List (List String × ℕ)) (s : List String) (gv : ℕ),
    visitedGet v s = some gv → (s, gv) ∈ v := by
  intro v
  induction v with
  | nil => intro s gv h; simp [visitedGet] at h
  | cons kv rest ih =>
    intro s gv h
    obtain ⟨k, g0⟩ := kv
    unfold visitedGet at h
    by_cases hk : k = s
    · rw [if_pos hk] at h
      rw [Option.some.injEq] at h
      subst hk
      subst h
      exact List.mem_cons_self _ _
    · rw [if_neg hk] at h
      exact List.mem_cons_of_mem _ (ih s gv h)

theorem visitedSet_mem : ∀ (v : List (List String × ℕ)) (s : List String) (g : ℕ),
    ∀ kv ∈ visitedSet v s g, kv = (s, g) ∨ kv ∈ v := by
  intro v
  induction v with
  | nil =>
    intro s g kv hkv
    simp [visitedSet] at hkv
    exact Or.inl hkv
  | cons kv0 rest ih =>
    intro s g kv hkv
    obtain ⟨k, g0⟩ := kv0
    unfold visitedSet at hkv
    by_cases hk : k = s
    · rw [if_pos hk] at hkv
      rcases List.mem_cons.mp hkv with h | h
      · exact Or.inl h
      · exact Or.inr (List.mem_cons_of_mem _ h)
    · rw [if_neg hk] at hkv
      rcases List.mem_cons.mp hkv with h | h
      · exact Or.inr (h ▸ List.mem_cons_self _ _)
      · rcases ih s g kv h with h2 | h2
        · exact Or.inl h2
        · exact Or.inr (List.mem_cons_of_mem _ h2)

theorem ltInfB_lower (q fnew : ℚ) (o : Option ℚ) (h1 : ltInfB q o = false)
    (h2 : ltInfB fnew o = true) : ltInfB q (some fnew) = false := by
  cases o with
  | none => simp [ltInfB] at h1
  | some b =>
    simp only [ltInfB, decide_eq_false_iff_not, not_lt] at h1
    simp only [ltInfB, decide_eq_true_eq] at h2
    simp only [ltInfB, decide_eq_false_iff_not, not_lt]
    linarith

theorem ltInfB_self (q : ℚ) : ltInfB q (some q) = false := by
  simp [ltInfB]

theorem stepOnce_searchInv (shot_probs : Profile) (n : ℕ) (ls : LoopState)
    (h : SearchInv shot_probs ls) : SearchInv shot_probs (stepOnce shot_probs n ls) := by
  obtain ⟨hheap, hvis⟩ := h
  unfold stepOnce
  cases hpop : heappopL ls.heap with
  | none => exact ⟨hheap, hvis⟩
  | some pr =>
    obtain ⟨⟨f, g, state⟩, heap1⟩ := pr
    have hpm := heappopL_mem ls.heap _ _ hpop
    have hpopped : EntryOK shot_probs (f, g, state) := by
      rcases hpm.1 with h2 | h2
      · exact hheap _ h2
      · rw [h2]
        exact entryOK_dummy shot_probs
    have hheap1 : ∀ x ∈ heap1, EntryOK shot_probs x := by
      intro x hx
      rcases hpm.2 x hx with h2 | h2
      · exact hheap x h2
      · rw [h2]
        exact entryOK_dummy shot_probs
    dsimp only
    by_cases hc1 : n ≤ state.length
    · rw [if_pos hc1]
      by_cases hc2 : ltInfB f ls.bestF = true
      · rw [if_pos hc2]
        refine ⟨hheap1, ?_⟩
        intro kv hkv hk
        exact ltInfB_lower _ _ _ (hvis kv hkv hk) hc2
      · rw [if_neg hc2]
        exact ⟨hheap1, hvis⟩
    · rw [if_neg hc1]
      by_cases hc3 : visitedLeB ls.visited state g = true
      · rw [if_pos hc3]
        exact ⟨hheap1, hvis⟩
      · rw [if_neg hc3]
        have hheap2 : ∀ x ∈ expandPush shot_probs g state heap1, EntryOK shot_probs x := by
          apply expandPush_inv_self (EntryOK shot_probs)
          · exact entryOK_dummy shot_probs
          · exact hheap1
          · intro zp _ hzn
            exact entryOK_child shot_probs g state zp.1 hpopped.1 hzn
        by_cases hc4 : ltInfB f ls.bestF = true ∧ state ≠ []
        · rw [if_pos hc4]
          refine ⟨hheap2, ?_⟩
          intro kv hkv hk
          rcases visitedSet_mem ls.visited state g kv hkv with h2 | h2
          · rw [h2]
            dsimp only
            rw [← hpopped.2 (by rw [h2] at hk; exact hk)]
            exact ltInfB_self f
          · exact ltInfB_lower _ _ _ (hvis kv h2 hk) hc4.1
        · rw [if_neg hc4]
          refine ⟨hheap2, ?_⟩
          intro kv hkv hk
          rcases visitedSet_mem ls.visited state g kv hkv with h2 | h2
          · have hne : state ≠ [] := by
              rw [h2] at hk
              exact hk
            have hflt : ltInfB f ls.bestF = false := by
              rcases Bool.eq_false_or_eq_true (ltInfB f ls.bestF) with hb | hb
              · exact absurd (And.intro hb hne) hc4
              · exact hb
            rw [h2]
            dsimp only
            rw [← hpopped.2 hne]
            exact hflt
          · exact hvis kv h2 hk

theorem initState_searchInv (shot_probs : Profile) :
    SearchInv shot_probs (initState shot_probs) := by
  constructor
  · intro e he
    simp only [initState, List.mem_singleton] at he
    rw [he]
    exact ⟨rfl, fun h => absurd rfl h⟩
  · intro kv hkv
    simp [initState] at hkv

/-- Claim C8: the secondary candidate tracking invariant.  Initially and
after every loop iteration the invariant holds that each frontier entry
carries f determined by its state and each visited nonempty state has f not
below best-so-far; under that invariant, whenever a pop yields a non-empty
state whose f is strictly below the current best-so-far f, the iteration
updates the best candidate to exactly that state and f.  This covers the
dominance-pruned pops as well: a pruned state was expanded before at the same
f (f is a function of the state), so its f is never strictly below the
best-so-far and the update condition is vacuous there, exactly as the spec
asserts. -/
theorem c8_secondary_tracking (shot_probs : Profile) (n_fielders : ℕ) :
    SearchInv shot_probs (initState shot_probs) ∧
    (∀ ls, SearchInv shot_probs ls →
      SearchInv shot_probs (stepOnce shot_probs n_fielders ls)) ∧
    (∀ ls, SearchInv shot_probs ls →
      ∀ f g s heap2, heappopL ls.heap = some ((f, g, s), heap2) → s ≠ [] →
        ltInfB f ls.bestF = true →
        (stepOnce shot_probs n_fielders ls).bestF = some f ∧
        (stepOnce shot_probs n_fielders ls).bestState = s) := by
  refine ⟨initState_searchInv shot_probs, stepOnce_searchInv shot_probs n_fielders, ?_⟩
  intro ls hinv f g s heap2 hpop hne hlt
  obtain ⟨hheap, hvis⟩ := hinv
  have hpm := heappopL_mem ls.heap _ _ hpop
  have hpopped : EntryOK shot_probs (f, g, s) := by
    rcases hpm.1 with h2 | h2
    · exact hheap _ h2
    · exact absurd (congrArg (fun e => e.2.2) h2) hne
  unfold stepOnce
  rw [hpop]
  dsimp only
  by_cases hc1 : n_fielders ≤ s.length
  · rw [if_pos hc1, if_pos hlt]
    exact ⟨rfl, rfl⟩
  · rw [if_neg hc1]
    by_cases hc3 : visitedLeB ls.visited s g = true
    · exfalso
      unfold visitedLeB at hc3
      cases hg : visitedGet ls.visited s with
      | none => rw [hg] at hc3; simp at hc3
      | some gv =>
        have hmem := visitedGet_mem ls.visited s gv hg
        have hfalse := hvis (s, gv) hmem hne
        dsimp only at hfalse
        rw [← hpopped.2 hne] at hfalse
        rw [hfalse] at hlt
        exact Bool.false_ne_true hlt
    · rw [if_neg hc3, if_pos (And.intro hlt hne)]
      exact ⟨rfl, rfl⟩

/-- Claim C8 witness: a concrete invariant-satisfying loop state whose pop
yields the nonempty state with f below the (infinite) best-so-far, and whose
step updates the best candidate to exactly that state and f. -/
theorem c8_witness :
    (stepOnce (shotProbsFor "yorker") 9
      ⟨[(fval (shotProbsFor "yorker") ["Fine Leg"], 1, ["Fine Leg"])], [], [], none, 0⟩).bestF =
      some (fval (shotProbsFor "yorker") ["Fine Leg"]) ∧
    (stepOnce (shotProbsFor "yorker") 9
      ⟨[(fval (shotProbsFor "yorker") ["Fine Leg"], 1, ["Fine Leg"])], [], [], none, 0⟩).bestState =
      ["Fine Leg"] :=
  (c8_secondary_tracking (shotProbsFor "yorker") 9).2.2
    ⟨[(fval (shotProbsFor "yorker") ["Fine Leg"], 1, ["Fine Leg"])], [], [], none, 0⟩
    (by
      constructor
      · intro e he
        simp only [List.mem_singleton] at he
        rw [he]
        exact ⟨rfl, fun _ => rfl⟩
      · intro kv hkv
        simp at hkv)
    (fval (shotProbsFor "yorker") ["Fine Leg"]) 1 ["Fine Leg"] [] rfl (by simp) rfl

theorem shotProbs_yorker : shotProbsFor "yorker" =
    [("Fine Leg", 0.4), ("Square Leg", 0.3), ("Mid Wicket", 0.2),
     ("Mid On", 0.1), ("Cover", 0.1)] := by
  simp [shotProbsFor, dget, DELIVERY_ZONE_PROBS]

theorem catalogKeys_eq : catalogKeys =
    ["Fine Leg", "Square Leg", "Mid Wicket", "Mid On", "Mid Off", "Cover", "Point",
     "Third Man", "Long On", "Long Off", "Deep Mid Wicket", "Slip"] := rfl

theorem padStep_self_mem (a : List String) (w : String) (n : ℕ) (hw : a.length < n) :
    w ∈ (if n ≤ a.length then a else if w ∈ a then a else a ++ [w]) := by
  rw [if_neg (Nat.not_le.mpr hw)]
  by_cases h : w ∈ a
  · rw [if_pos h]
    exact h
  · rw [if_neg h]
    exact List.mem_append.mpr (Or.inr (List.mem_singleton.mpr rfl))

theorem padStep_subset (a : List String) (w : String) (n : ℕ) :
    a ⊆ (if n ≤ a.length then a else if w ∈ a then a else a ++ [w]) := by
  intro x hx
  split_ifs
  · exact hx
  · exact hx
  · exact List.mem_append.mpr (Or.inl hx)

theorem padStep_length_le (a : List String) (w : String) (n : ℕ) :
    (if n ≤ a.length then a else if w ∈ a then a else a ++ [w]).length ≤ a.length + 1 := by
  split_ifs <;> simp

theorem padList_cons (z : String) (zs : List String) (acc : List String) (n : ℕ) :
    padList (z :: zs) acc n =
      padList zs (if n ≤ acc.length then acc else if z ∈ acc then acc else acc ++ [z]) n := by
  unfold padList
  rw [List.foldl_cons]

theorem c1_zone_membership :
    "Fine Leg" ∈ (astar_field_placement "yorker" 9).fielders.map Fielder.zone ∧
    "Square Leg" ∈ (astar_field_placement "yorker" 9).fielders.map Fielder.zone := by
  obtain ⟨hsorted, hbkeys, hblen⟩ := bestState_ok (shotProbsFor "yorker") 9
  have hbnodup := sorted_lt_nodup _ hsorted
  have hb5 : (searchLoop (shotProbsFor "yorker") 9 500
      (initState (shotProbsFor "yorker"))).bestState.length ≤ 5 := by
    have h1 := (hbnodup.subperm hbkeys).length_le
    rw [shotProbs_yorker] at h1
    simpa using h1
  have hbcat : ∀ a ∈ (searchLoop (shotProbsFor "yorker") 9 500
      (initState (shotProbsFor "yorker"))).bestState, a ∈ catalogKeys :=
    fun a ha => shotProbsFor_keys_subset "yorker" a (hbkeys a ha)
  have hpadlen : (padList catalogKeys (searchLoop (shotProbsFor "yorker") 9 500
      (initState (shotProbsFor "yorker"))).bestState 9).length = 9 := by
    rw [padList_length catalogKeys catalogKeys_nodup _ 9 hbnodup hblen,
      filter_not_mem_length catalogKeys _ catalogKeys_nodup hbnodup hbcat, catalogKeys_length]
    omega
  have hmem2 : "Fine Leg" ∈ padList catalogKeys (searchLoop (shotProbsFor "yorker") 9 500
      (initState (shotProbsFor "yorker"))).bestState 9 ∧
      "Square Leg" ∈ padList catalogKeys (searchLoop (shotProbsFor "yorker") 9 500
      (initState (shotProbsFor "yorker"))).bestState 9 := by
    rw [catalogKeys_eq, padList_cons, padList_cons]
    constructor
    · apply padList_subset_acc
      apply padStep_subset
      exact padStep_self_mem _ "Fine Leg" 9 (by omega)
    · apply padList_subset_acc
      apply padStep_self_mem
      have h1 := padStep_length_le (searchLoop (shotProbsFor "yorker") 9 500
        (initState (shotProbsFor "yorker"))).bestState "Fine Leg" 9
      omega
  unfold astar_field_placement placeWithProfile
  dsimp only
  unfold sortFielders
  have hperm := (List.mergeSort_perm (buildFielders (shotProbsFor "yorker") 0
      ((padList catalogKeys (searchLoop (shotProbsFor "yorker") 9 500
        (initState (shotProbsFor "yorker"))).bestState 9).take 9))
      (fun a b => decide (b.coverage ≤ a.coverage))).map Fielder.zone
  rw [buildFielders_zones] at hperm
  have htake : (padList catalogKeys (searchLoop (shotProbsFor "yorker") 9 500
      (initState (shotProbsFor "yorker"))).bestState 9).take 9 =
      padList catalogKeys (searchLoop (shotProbsFor "yorker") 9 500
      (initState (shotProbsFor "yorker"))).bestState 9 :=
    List.take_of_length_le (by rw [hpadlen])
  constructor
  · rw [hperm.mem_iff, htake]
    exact hmem2.1
  · rw [hperm.mem_iff, htake]
    exact hmem2.2

theorem c1_key_flags : ∀ f ∈ (astar_field_placement "yorker" 9).fielders,
    (f.zone = "Fine Leg" ∨ f.zone = "Square Leg") → f.is_key = false := by
  intro f hf hzone
  unfold astar_field_placement placeWithProfile at hf
  dsimp only at hf
  unfold sortFielders at hf
  have hmem := (List.mergeSort_perm _ _).mem_iff.mp hf
  obtain ⟨j, zone, _, _, hfe⟩ := buildFielders_mem _ _ _ _ hmem
  have hzeq : f.zone = zone := by
    rw [hfe]
    simp [mkFielder]
  have hkey : f.is_key = decide ((0.4:ℚ) < dgetD (shotProbsFor "yorker") zone 0.1) := by
    rw [hfe]
    simp [mkFielder]
  rw [hkey]
  rcases hzone with hz | hz
  · rw [hzeq] at hz
    subst hz
    rw [shotProbs_yorker]
    apply decide_eq_false
    have e1 : dgetD [("Fine Leg", (0.4:ℚ)), ("Square Leg", 0.3), ("Mid Wicket", 0.2),
        ("Mid On", 0.1), ("Cover", 0.1)] "Fine Leg" 0.1 = 0.4 := by
      simp [dgetD, dget]
    rw [e1]
    norm_num
  · rw [hzeq] at hz
    subst hz
    rw [shotProbs_yorker]
    apply decide_eq_false
    have e1 : dgetD [("Fine Leg", (0.4:ℚ)), ("Square Leg", 0.3), ("Mid Wicket", 0.2),
        ("Mid On", 0.1), ("Cover", 0.1)] "Square Leg" 0.1 = 0.3 := by
      simp [dgetD, dget]
    rw [e1]
    norm_num

/-- Claim C1 counterexample: in place_field("yorker", 9) no assignment with
zone "Fine Leg" has is_key true, because the yorker profile probability of
Fine Leg is exactly 0.4 and is_key requires the probability to be strictly
greater than 0.4; this refutes the claim that the Fine Leg (and Square Leg,
probability 0.3) assignments are key. -/
theorem c1_counterexample :
    ((astar_field_placement "yorker" 9).fielders.any
      (fun f => f.zone == "Fine Leg" && f.is_key)) = false := by
  rcases Bool.eq_false_or_eq_true ((astar_field_placement "yorker" 9).fielders.any
      (fun f => f.zone == "Fine Leg" && f.is_key)) with h | h
  case inr => exact h
  case inl =>
    exfalso
    obtain ⟨f, hf, hp⟩ := List.any_eq_true.mp h
    rw [Bool.and_eq_true] at hp
    have hz : f.zone = "Fine Leg" := beq_iff_eq.mp hp.1
    have hkey := c1_key_flags f hf (Or.inl hz)
    rw [hkey] at hp
    exact Bool.false_ne_true hp.2

/-- Claim C1 (amended): place_field("yorker", 9) does include both "Fine Leg"
and "Square Leg" among its assigned zones, but their is_key flags are false,
since is_key tests the raw profile probability strictly against 0.4 and the
yorker profile assigns exactly 0.4 to Fine Leg and 0.3 to Square Leg. -/
theorem c1_yorker_zones :
    "Fine Leg" ∈ (astar_field_placement "yorker" 9).fielders.map Fielder.zone ∧
    "Square Leg" ∈ (astar_field_placement "yorker" 9).fielders.map Fielder.zone ∧
    ((astar_field_placement "yorker" 9).fielders.all
      (fun f => !((f.zone == "Fine Leg" || f.zone == "Square Leg") && f.is_key))) = true := by
  refine ⟨c1_zone_membership.1, c1_zone_membership.2, ?_⟩
  rw [List.all_eq_true]
  intro f hf
  by_cases hk : f.is_key = true
  · have hzone : ¬ (f.zone = "Fine Leg" ∨ f.zone = "Square Leg") := by
      intro hz
      rw [c1_key_flags f hf hz] at hk
      exact Bool.false_ne_true hk
    have h1 : (f.zone == "Fine Leg") = false := by
      rcases Bool.eq_false_or_eq_true (f.zone == "Fine Leg") with hb | hb
      · exact absurd (Or.inl (beq_iff_eq.mp hb)) hzone
      · exact hb
    have h2 : (f.zone == "Square Leg") = false := by
      rcases Bool.eq_false_or_eq_true (f.zone == "Square Leg") with hb | hb
      · exact absurd (Or.inr (beq_iff_eq.mp hb)) hzone
      · exact hb
    rw [h1, h2]
    rfl
  · have hk2 : f.is_key = false := by
      rcases Bool.eq_false_or_eq_true f.is_key with hb | hb
      · exact absurd hb hk
      · exact hb
    rw [hk2]
    simp
